import Mathlib

/-!
Verification development for the Kaleidoscope-style front end in `toy.cpp`:
a streaming lexer (`gettok`), an AST, and a recursive-descent parser with
precedence climbing (`ParseExpression`, `ParseBinOpRHS`, `ParsePrototype`, ...).

The C++ code is shallowly embedded as follows.

* The character source (`getchar` on stdin) becomes an explicit pair
  `(LastChar : Option Char, input : List Char)`: `LastChar` is the lexer's
  one-character lookahead (`none` models `LastChar == EOF`), `input` the
  not-yet-read characters.
* `gettok` calls itself after a comment line, so it is defined with an
  explicit fuel argument (`gettokN`); `input.length + 1` fuel is proved
  sufficient (`gettokN_isSome`), and `gettok` is the total function obtained
  at that fuel.
* The C++ parser reads tokens through the global `CurTok` buffer.  It is
  embedded as functions from a token list (the stream of tokens the lexer
  hands to `getNextToken`, in order) to results; `curTok` of the empty list
  is `tok_eof`, matching the lexer, which keeps returning `tok_eof` once the
  stream is exhausted.  The mutually recursive parser functions take a fuel
  argument; `4 * (number of tokens) + 8` is proved sufficient.
* `NumVal = strtod(NumStr, nullptr)` stores a `double`.  Floating point is
  not modelled: a number token and a `NumberExprAST` carry the literal text
  `NumStr` itself, of which the C++ `double` value is a function.  Every
  property below only compares literals by their text.
* `BinopPrecedence` is a `std::map<char, int>`; it is modelled as an
  association list threaded through the parser.  `operator[]` on an absent
  key default-inserts the entry `(key, 0)` and yields `0`, and
  `GetTokPrecedence` reproduces exactly that.
-/

/-- Character class test mirroring C `isspace` on ASCII input:
space (32) and the control characters 9..13. -/
def isspace (c : Char) : Bool :=
  c.toNat = 32 || (9 ≤ c.toNat && c.toNat ≤ 13)

/-- Character class test mirroring C `isalpha` on ASCII input. -/
def isalpha (c : Char) : Bool :=
  (97 ≤ c.toNat && c.toNat ≤ 122) || (65 ≤ c.toNat && c.toNat ≤ 90)

/-- Character class test mirroring C `isdigit`. -/
def isdigit (c : Char) : Bool :=
  48 ≤ c.toNat && c.toNat ≤ 57

/-- Character class test mirroring C `isalnum`. -/
def isalnum (c : Char) : Bool :=
  isalpha c || isdigit c

/-- One `getchar()` call: the next character of the stream, or `none` for
`EOF` when the stream is exhausted. -/
def getchar : List Char → Option Char × List Char
  | [] => (none, [])
  | c :: cs => (some c, cs)

/-- Loop `while (isspace(LastChar)) LastChar = getchar();` (toy.cpp:33-35).
`isspace` of `EOF` is false, so a `none` lookahead stops the loop. -/
def skipSpaces : Option Char → List Char → Option Char × List Char
  | none, input => (none, input)
  | some c, input =>
    if isspace c then
      match input with
      | [] => (none, [])
      | d :: rest => skipSpaces (some d) rest
    else (some c, input)

/-- Loop `while (isalnum((LastChar = getchar()))) IdentifierStr += LastChar;`
(toy.cpp:43-45): read one character, keep it while alphanumeric. -/
def readAlnum (acc : String) : List Char → String × Option Char × List Char
  | [] => (acc, none, [])
  | c :: cs =>
    if isalnum c then readAlnum (acc.push c) cs else (acc, some c, cs)

/-- Loop `do { NumStr += LastChar; LastChar = getchar(); } while (isdigit ||
'.')` (toy.cpp:61-64): append the pending character, then continue while the
next one is a digit or a dot. -/
def readNum (acc : String) (c : Char) : List Char → String × Option Char × List Char
  | [] => (acc.push c, none, [])
  | d :: cs =>
    if isdigit d || d = '.' then readNum (acc.push c) d cs
    else (acc.push c, some d, cs)

/-- Comment loop `do LastChar = getchar(); while (LastChar != EOF && != '\n'
&& != '\r')` (toy.cpp:73-75). -/
def skipComment : List Char → Option Char × List Char
  | [] => (none, [])
  | c :: cs =>
    if c = Char.ofNat 10 || c = Char.ofNat 13 then (some c, cs)
    else skipComment cs

/-- Token values returned by `gettok` (toy.cpp:15-23).  The C++ function
returns an `int`: the negative enum values `tok_eof .. tok_number`, or the
ASCII code of an unrecognized character (modelled by `tok_char`).  The
associated `IdentifierStr` / `NumStr` globals are carried on the token. -/
inductive Token where
  | tok_eof
  | tok_def
  | tok_xtern
  | tok_identifier (s : String)
  | tok_number (numStr : String)
  | tok_char (c : Char)
deriving Repr, DecidableEq

/-- Fueled embedding of `gettok` (toy.cpp:29-92); the fuel only bounds the
depth of the comment-line self-call at toy.cpp:80.  Note the source's guard
at toy.cpp:84 reads `if (LastChar != EOF) return tok_eof;` — with `!=`, not
`==` — so every unrecognized non-EOF character returns `tok_eof` *without*
being consumed, and the ASCII-code return at toy.cpp:89-91 is reached only
when `LastChar == EOF`, where `ThisChar = EOF = -1 = tok_eof`. -/
def gettokN : Nat → Option Char → List Char → Option (Token × Option Char × List Char)
  | 0, _, _ => none
  | fuel + 1, last, input =>
    match skipSpaces last input with
    | (some c, input1) =>
      if isalpha c then
        match readAlnum (String.singleton c) input1 with
        | (s, last2, input2) =>
          if s = "def" then some (Token.tok_def, last2, input2)
          else if s = "extern" then some (Token.tok_xtern, last2, input2)
          else some (Token.tok_identifier s, last2, input2)
      else if isdigit c || c = '.' then
        match readNum "" c input1 with
        | (s, last2, input2) => some (Token.tok_number s, last2, input2)
      else if c = '#' then
        match skipComment input1 with
        | (some c2, input2) => gettokN fuel (some c2) input2
        | (none, input2) =>
          match getchar input2 with
          | (last2, input3) => some (Token.tok_eof, last2, input3)
      else
        some (Token.tok_eof, some c, input1)
    | (none, input1) =>
      match getchar input1 with
      | (last2, input3) => some (Token.tok_eof, last2, input3)

theorem skipSpaces_length :
    ∀ l i, (skipSpaces l i).2.length ≤ i.length := by
  intro l i
  induction i generalizing l with
  | nil =>
    cases l with
    | none => simp [skipSpaces]
    | some c =>
      simp only [skipSpaces]
      split <;> simp
  | cons d rest ih =>
    cases l with
    | none => simp [skipSpaces]
    | some c =>
      simp only [skipSpaces]
      split
      · exact Nat.le_trans (ih (some d)) (by simp)
      · simp

theorem skipComment_some_length :
    ∀ i c2 i2, skipComment i = (some c2, i2) → i2.length < i.length := by
  intro i
  induction i with
  | nil => intro c2 i2 h; simp [skipComment] at h
  | cons c cs ih =>
    intro c2 i2 h
    simp only [skipComment] at h
    split at h
    · cases h; simp
    · exact Nat.lt_trans (ih c2 i2 h) (by simp)

theorem gettokN_isSome :
    ∀ fuel l i, i.length < fuel → (gettokN fuel l i).isSome := by
  intro fuel
  induction fuel with
  | zero => intro l i h; omega
  | succ fuel ih =>
    intro l i h
    simp only [gettokN]
    have hss := skipSpaces_length l i
    match hskip : skipSpaces l i with
    | (none, input1) =>
      simp [hskip]
    | (some c, input1) =>
      rw [hskip] at hss
      simp only [hskip]
      split
      · split
        · simp
        · split <;> simp
      · split
        · simp
        · split
          · match hcom : skipComment input1 with
            | (some c2, input2) =>
              simp only [hcom]
              apply ih
              have := skipComment_some_length input1 c2 input2 hcom
              simp at hss
              omega
            | (none, input2) => simp [hcom]
          · simp

/-- Total version of `gettok`: `input.length + 1` fuel is always sufficient
(`gettokN_isSome`), so the default branch is never taken. -/
def gettok (last : Option Char) (input : List Char) : Token × Option Char × List Char :=
  match gettokN (input.length + 1) last input with
  | some r => r
  | none => (Token.tok_eof, none, [])

theorem gettok_eq (last : Option Char) (input : List Char) :
    gettokN (input.length + 1) last input = some (gettok last input) := by
  have h := gettokN_isSome (input.length + 1) last input (by omega)
  match heq : gettokN (input.length + 1) last input with
  | some r => simp [gettok, heq]
  | none => rw [heq] at h; simp at h

/-- Measure of a lexer state: characters still to be read, counting the
pending `LastChar` when it is not `EOF`. -/
def mLC : Option Char → List Char → Nat
  | none, i => i.length
  | some _, i => i.length + 1

theorem mLC_some (c : Char) (i : List Char) : mLC (some c) i = i.length + 1 := rfl

theorem mLC_none (i : List Char) : mLC none i = i.length := rfl

theorem skipSpaces_m :
    ∀ l i, mLC (skipSpaces l i).1 (skipSpaces l i).2 ≤ mLC l i := by
  intro l i
  induction i generalizing l with
  | nil =>
    cases l with
    | none => simp [skipSpaces, mLC]
    | some c =>
      simp only [skipSpaces]
      split <;> simp [mLC]
  | cons d rest ih =>
    cases l with
    | none => simp [skipSpaces, mLC]
    | some c =>
      simp only [skipSpaces]
      split
      · exact Nat.le_trans (ih (some d)) (by simp [mLC])
      · simp [mLC]

theorem readAlnum_m :
    ∀ i acc, mLC (readAlnum acc i).2.1 (readAlnum acc i).2.2 ≤ i.length := by
  intro i
  induction i with
  | nil => intro acc; simp [readAlnum, mLC]
  | cons c cs ih =>
    intro acc
    simp only [readAlnum]
    split
    · exact Nat.le_trans (ih (acc.push c)) (by simp)
    · simp [mLC]

theorem readNum_m :
    ∀ i acc c, mLC (readNum acc c i).2.1 (readNum acc c i).2.2 ≤ i.length := by
  intro i
  induction i with
  | nil => intro acc c; simp [readNum, mLC]
  | cons d cs ih =>
    intro acc c
    simp only [readNum]
    split
    · exact Nat.le_trans (ih (acc.push c) d) (by simp)
    · simp [mLC]

theorem gettokN_progress :
    ∀ fuel l i t l2 i2, gettokN fuel l i = some (t, l2, i2) →
      t ≠ Token.tok_eof → mLC l2 i2 < mLC l i := by
  intro fuel
  induction fuel with
  | zero => intro l i t l2 i2 h; simp [gettokN] at h
  | succ fuel ih =>
    intro l i t l2 i2 h hne
    simp only [gettokN] at h
    have hss := skipSpaces_m l i
    match hskip : skipSpaces l i with
    | (none, input1) =>
      rw [hskip] at h
      simp [getchar] at h
      exact absurd h.1.symm hne
    | (some c, input1) =>
      rw [hskip] at h hss
      simp only at h hss
      rw [mLC_some] at hss
      split at h
      · have hm := readAlnum_m input1 (String.singleton c)
        match hra : readAlnum (String.singleton c) input1 with
        | (s, last2, input2) =>
          rw [hra] at h hm
          simp only at h hm
          split at h
          · cases h; omega
          · split at h <;> (cases h; omega)
      · split at h
        · have hm := readNum_m input1 "" c
          match hrn : readNum "" c input1 with
          | (s, last2, input2) =>
            rw [hrn] at h hm
            simp only at h hm
            cases h; omega
        · split at h
          · match hcom : skipComment input1 with
            | (some c2, input2) =>
              rw [hcom] at h
              have h1 := ih _ _ _ _ _ h hne
              have h2 := skipComment_some_length input1 c2 input2 hcom
              rw [mLC_some] at h1
              omega
            | (none, input2) =>
              rw [hcom] at h
              simp [getchar] at h
              exact absurd h.1.symm hne
          · simp at h
            exact absurd h.1.symm hne

theorem gettok_progress (l : Option Char) (i : List Char) :
    (gettok l i).1 ≠ Token.tok_eof → mLC (gettok l i).2.1 (gettok l i).2.2 < mLC l i := by
  intro h
  have he := gettok_eq l i
  exact gettokN_progress _ l i _ _ _ (by rw [he]) h

theorem gettokN_ne_char :
    ∀ fuel l i t l2 i2, gettokN fuel l i = some (t, l2, i2) →
      ∀ c, t ≠ Token.tok_char c := by
  intro fuel
  induction fuel with
  | zero => intro l i t l2 i2 h; simp [gettokN] at h
  | succ fuel ih =>
    intro l i t l2 i2 h c
    simp only [gettokN] at h
    match hskip : skipSpaces l i with
    | (none, input1) =>
      rw [hskip] at h
      simp [getchar] at h
      simp [← h.1]
    | (some c1, input1) =>
      rw [hskip] at h
      simp only at h
      split at h
      · split at h
        · cases h; simp
        · split at h <;> (cases h; simp)
      · split at h
        · cases h; simp
        · split at h
          · match hcom : skipComment input1 with
            | (some c2, input2) =>
              rw [hcom] at h
              exact ih _ _ _ _ _ h c
            | (none, input2) =>
              rw [hcom] at h
              simp [getchar] at h
              simp [← h.1]
          · simp at h
            simp [← h.1]

theorem gettok_ne_char (l : Option Char) (i : List Char) (c : Char) :
    (gettok l i).1 ≠ Token.tok_char c := by
  have he := gettok_eq l i
  exact gettokN_ne_char _ l i _ _ _ (by rw [he]) c

/-- Fueled unfolding of the token stream handed to the parser: tokens in
order, ending at the first `tok_eof` (once `gettok` returns `tok_eof` its
state no longer changes, so every later call yields `tok_eof` again). -/
def lexAllN : Nat → Option Char → List Char → Option (List Token)
  | 0, _, _ => none
  | fuel + 1, last, input =>
    match gettok last input with
    | (t, last2, input2) =>
      if t = Token.tok_eof then some []
      else
        match lexAllN fuel last2 input2 with
        | some ts => some (t :: ts)
        | none => none

theorem lexAllN_isSome :
    ∀ fuel l i, mLC l i < fuel → (lexAllN fuel l i).isSome := by
  intro fuel
  induction fuel with
  | zero => intro l i h; omega
  | succ fuel ih =>
    intro l i h
    simp only [lexAllN]
    match hg : gettok l i with
    | (t, l2, i2) =>
      simp only
      split
      · simp
      · have hp := gettok_progress l i (by rw [hg]; simpa using by assumption)
        rw [hg] at hp
        have := ih l2 i2 (by simp at hp ⊢; omega)
        match hrec : lexAllN fuel l2 i2 with
        | some ts => simp
        | none => rw [hrec] at this; simp at this

/-- Token stream of a whole input string, as the parser sees it: the initial
`LastChar` is the space set at toy.cpp:30, and `mLC + 1` fuel always
suffices (`lexAllN_isSome`). -/
def tokensOf (s : String) : List Token :=
  match lexAllN (s.data.length + 2) (some ' ') s.data with
  | some ts => ts
  | none => []

theorem tokensOf_eq (s : String) :
    lexAllN (s.data.length + 2) (some ' ') s.data = some (tokensOf s) := by
  have h := lexAllN_isSome (s.data.length + 2) (some ' ') s.data (by simp [mLC])
  unfold tokensOf
  match heq : lexAllN (s.data.length + 2) (some ' ') s.data with
  | some ts => simp
  | none => rw [heq] at h; simp at h

/-- Expression AST nodes (toy.cpp:100-135), as a closed sum.  `NumberExprAST`
carries the literal text `NumStr` whose `strtod` value the C++ node stores. -/
inductive ExprAST where
  | NumberExprAST (numStr : String)
  | VariableExprAST (name : String)
  | BinaryExprAST (op : Char) (lhs rhs : ExprAST)
  | CallExprAST (callee : String) (args : List ExprAST)
deriving Repr

/-- Function prototype (toy.cpp:138-147). -/
structure PrototypeAST where
  name : String
  args : List String
deriving Repr, DecidableEq

/-- Function definition: prototype plus body expression (toy.cpp:149-157). -/
structure FunctionAST where
  proto : PrototypeAST
  body : ExprAST
deriving Repr

/-- The `BinopPrecedence` map `std::map<char, int>` (toy.cpp:171), as an
association list in insertion order. -/
abbrev BinopMap := List (Char × Int)

/-- Contents of `BinopPrecedence` after the one-time setup in `main`
(toy.cpp:463-466). -/
def BinopPrecedence : BinopMap :=
  [('<', 10), ('+', 20), ('-', 30), ('*', 40)]

/-- Result of a parsing function: the C++ returns a pointer that is null on
failure, the stream and table state living in globals.  `ok` and `err` carry
the remaining token stream and the table; `err` also carries the `LogError`
message.  `outOfFuel` marks fuel exhaustion of the embedding (proved
unreachable at fuel `4 * stream length + 8`). -/
inductive PResult (α : Type) where
  | ok (val : α) (toks : List Token) (tbl : BinopMap)
  | err (msg : String) (toks : List Token) (tbl : BinopMap)
  | outOfFuel
deriving Repr

/-- The current lookahead `CurTok`: head of the remaining stream; once the
stream is exhausted the lexer yields `tok_eof` forever. -/
def curTok : List Token → Token
  | [] => Token.tok_eof
  | t :: _ => t

/-- The effect of `getNextToken()` on the remaining stream. -/
def advance : List Token → List Token
  | [] => []
  | _ :: ts => ts

/-- `GetTokPrecedence` (toy.cpp:174-188): `-1` unless `CurTok` is an ASCII
code (`isascii`), else `BinopPrecedence[CurTok]`, which default-inserts `0`
for an absent key (`std::map::operator[]`); a looked-up value `≤ 0` also
yields `-1`.  Returns the precedence together with the possibly-extended
map. -/
def GetTokPrecedence (t : Token) (tbl : BinopMap) : Int × BinopMap :=
  match t with
  | Token.tok_char c =>
    if c.toNat ≤ 127 then
      match tbl.lookup c with
      | some v => (if v ≤ 0 then -1 else v, tbl)
      | none => (-1, tbl ++ [(c, 0)])
    else (-1, tbl)
  | _ => (-1, tbl)

/-- Value of `int BinOp = CurTok` as the `char Op` stored by
`BinaryExprAST` (toy.cpp:297, 119).  When the token is not a character this
conversion of a negative `int` to `char` is implementation-defined in C++;
the branch is unreachable because `ParseBinOpRHS` is only ever called with a
non-negative minimum precedence (entry `0`, recursion `TokPrec + 1`). -/
def tokOpChar : Token → Char
  | Token.tok_char c => c
  | _ => Char.ofNat 0

/-- `ParseNumberExpr` (toy.cpp:204-208): build the literal node from the
current number token's text (`NumVal`) and consume the token. -/
def ParseNumberExpr (numStr : String) (ts : List Token) (tbl : BinopMap) : PResult ExprAST :=
  PResult.ok (ExprAST.NumberExprAST numStr) (advance ts) tbl

mutual

/-- `ParseIdentifierExpr` (toy.cpp:229-264): consume the identifier; a plain
variable reference unless `(` follows, else a call with `,`-separated
argument expressions until `)`. -/
def ParseIdentifierExpr : Nat → String → List Token → BinopMap → PResult ExprAST
  | 0, _, _, _ => PResult.outOfFuel
  | fuel + 1, idName, ts, tbl =>
    let ts1 := advance ts
    if curTok ts1 = Token.tok_char '(' then
      let ts2 := advance ts1
      if curTok ts2 = Token.tok_char ')' then
        PResult.ok (ExprAST.CallExprAST idName []) (advance ts2) tbl
      else
        match ParseCallArgs fuel [] ts2 tbl with
        | PResult.ok args ts3 tbl3 =>
          PResult.ok (ExprAST.CallExprAST idName args) (advance ts3) tbl3
        | PResult.err m ts3 tbl3 => PResult.err m ts3 tbl3
        | PResult.outOfFuel => PResult.outOfFuel
    else PResult.ok (ExprAST.VariableExprAST idName) ts1 tbl

/-- The argument loop of `ParseIdentifierExpr` (toy.cpp:243-258): parse an
expression, stop at `)`, continue past `,`, anything else is an error. -/
def ParseCallArgs : Nat → List ExprAST → List Token → BinopMap → PResult (List ExprAST)
  | 0, _, _, _ => PResult.outOfFuel
  | fuel + 1, acc, ts, tbl =>
    match ParseExpression fuel ts tbl with
    | PResult.ok arg ts1 tbl1 =>
      let acc1 := acc ++ [arg]
      if curTok ts1 = Token.tok_char ')' then PResult.ok acc1 ts1 tbl1
      else if curTok ts1 = Token.tok_char ',' then
        ParseCallArgs fuel acc1 (advance ts1) tbl1
      else PResult.err "Expected ')' or ',' in argument list" ts1 tbl1
    | PResult.err m ts1 tbl1 => PResult.err m ts1 tbl1
    | PResult.outOfFuel => PResult.outOfFuel

/-- `ParseParenExpr` (toy.cpp:212-224): consume `(`, parse an expression,
require and consume `)`. -/
def ParseParenExpr : Nat → List Token → BinopMap → PResult ExprAST
  | 0, _, _ => PResult.outOfFuel
  | fuel + 1, ts, tbl =>
    let ts1 := advance ts
    match ParseExpression fuel ts1 tbl with
    | PResult.ok v ts2 tbl2 =>
      if curTok ts2 = Token.tok_char ')' then PResult.ok v (advance ts2) tbl2
      else PResult.err "expected ')'" ts2 tbl2
    | PResult.err m ts2 tbl2 => PResult.err m ts2 tbl2
    | PResult.outOfFuel => PResult.outOfFuel

/-- `ParsePrimay` (toy.cpp:270-281): dispatch on the current token. -/
def ParsePrimay : Nat → List Token → BinopMap → PResult ExprAST
  | 0, _, _ => PResult.outOfFuel
  | fuel + 1, ts, tbl =>
    match curTok ts with
    | Token.tok_identifier idName => ParseIdentifierExpr fuel idName ts tbl
    | Token.tok_number numStr => ParseNumberExpr numStr ts tbl
    | Token.tok_char c =>
      if c = '(' then ParseParenExpr fuel ts tbl
      else PResult.err "unknown token when expecting an expression" ts tbl
    | _ => PResult.err "unknown token when expecting an expression" ts tbl

/-- `ParseBinOpRHS` (toy.cpp:286-332): the precedence-climbing loop.  Each
`while (true)` iteration is the tail call with unchanged `exprPrec`; the
inner recursion passes `tokPrec + 1`. -/
def ParseBinOpRHS : Nat → Int → ExprAST → List Token → BinopMap → PResult ExprAST
  | 0, _, _, _, _ => PResult.outOfFuel
  | fuel + 1, exprPrec, lhs, ts, tbl =>
    match GetTokPrecedence (curTok ts) tbl with
    | (tokPrec, tbl1) =>
      if tokPrec < exprPrec then PResult.ok lhs ts tbl1
      else
        let binOp := tokOpChar (curTok ts)
        let ts1 := advance ts
        match ParsePrimay fuel ts1 tbl1 with
        | PResult.ok rhs ts2 tbl2 =>
          match GetTokPrecedence (curTok ts2) tbl2 with
          | (nextPrec, tbl3) =>
            if tokPrec < nextPrec then
              match ParseBinOpRHS fuel (tokPrec + 1) rhs ts2 tbl3 with
              | PResult.ok rhs2 ts3 tbl4 =>
                ParseBinOpRHS fuel exprPrec (ExprAST.BinaryExprAST binOp lhs rhs2) ts3 tbl4
              | PResult.err m ts3 tbl4 => PResult.err m ts3 tbl4
              | PResult.outOfFuel => PResult.outOfFuel
            else
              ParseBinOpRHS fuel exprPrec (ExprAST.BinaryExprAST binOp lhs rhs) ts2 tbl3
        | PResult.err m ts2 tbl2 => PResult.err m ts2 tbl2
        | PResult.outOfFuel => PResult.outOfFuel

/-- `ParseExpression` (toy.cpp:336-344): a primary followed by the binary
operator loop at minimum precedence `0`. -/
def ParseExpression : Nat → List Token → BinopMap → PResult ExprAST
  | 0, _, _ => PResult.outOfFuel
  | fuel + 1, ts, tbl =>
    match ParsePrimay fuel ts tbl with
    | PResult.ok lhs ts1 tbl1 => ParseBinOpRHS fuel 0 lhs ts1 tbl1
    | PResult.err m ts1 tbl1 => PResult.err m ts1 tbl1
    | PResult.outOfFuel => PResult.outOfFuel

end

/-- The parameter loop of `ParsePrototype` (toy.cpp:362-364):
`while (getNextToken() == tok_identifier)` — advance first, then collect
while the new token is an identifier. -/
def protoArgs (acc : List String) : List Token → List String × List Token
  | [] => (acc, [])
  | _ :: rest =>
    match rest with
    | Token.tok_identifier s :: _ => protoArgs (acc ++ [s]) rest
    | _ => (acc, rest)

/-- `ParsePrototype` (toy.cpp:349-373): function name, `(`, parameter
identifiers, `)`. -/
def ParsePrototype (ts : List Token) (tbl : BinopMap) : PResult PrototypeAST :=
  match curTok ts with
  | Token.tok_identifier fnName =>
    let ts1 := advance ts
    if curTok ts1 = Token.tok_char '(' then
      match protoArgs [] ts1 with
      | (argNames, ts2) =>
        if curTok ts2 = Token.tok_char ')' then
          PResult.ok (PrototypeAST.mk fnName argNames) (advance ts2) tbl
        else PResult.err "Expected ')' in prototype" ts2 tbl
    else PResult.err "Expected '(' in prototype" ts1 tbl
  | _ => PResult.err "Expected function name in prototype" ts tbl

/-- `ParseDefination` (toy.cpp:376-388): consume `def`, a prototype, then
one expression as the body. -/
def ParseDefination (fuel : Nat) (ts : List Token) (tbl : BinopMap) : PResult FunctionAST :=
  let ts1 := advance ts
  match ParsePrototype ts1 tbl with
  | PResult.ok proto ts2 tbl2 =>
    match ParseExpression fuel ts2 tbl2 with
    | PResult.ok e ts3 tbl3 => PResult.ok (FunctionAST.mk proto e) ts3 tbl3
    | PResult.err m ts3 tbl3 => PResult.err m ts3 tbl3
    | PResult.outOfFuel => PResult.outOfFuel
  | PResult.err m ts2 tbl2 => PResult.err m ts2 tbl2
  | PResult.outOfFuel => PResult.outOfFuel

/-- `ParseTopLevelExpr` (toy.cpp:391-398): one expression wrapped in the
anonymous zero-parameter prototype `__anon_expr`. -/
def ParseTopLevelExpr (fuel : Nat) (ts : List Token) (tbl : BinopMap) : PResult FunctionAST :=
  match ParseExpression fuel ts tbl with
  | PResult.ok e ts1 tbl1 =>
    PResult.ok (FunctionAST.mk (PrototypeAST.mk "__anon_expr" []) e) ts1 tbl1
  | PResult.err m ts1 tbl1 => PResult.err m ts1 tbl1
  | PResult.outOfFuel => PResult.outOfFuel

/-- `ParseExtern` (toy.cpp:401-404): consume the keyword, then a prototype. -/
def ParseExternProto (ts : List Token) (tbl : BinopMap) : PResult PrototypeAST :=
  ParsePrototype (advance ts) tbl

/-- Fuel that is always sufficient for the expression parser (see
`parseFuel_sufficient`). -/
def parseFuel (ts : List Token) : Nat := 4 * ts.length + 8

/-- End-to-end pipeline on a string, as in the REPL: lex everything, prime
the lookahead, parse one expression starting from the precedence table that
`main` set up. -/
def parseInputExpr (s : String) : PResult ExprAST :=
  ParseExpression (parseFuel (tokensOf s)) (tokensOf s) BinopPrecedence

/-- End-to-end pipeline for a `def` at the top level. -/
def parseInputDefination (s : String) : PResult FunctionAST :=
  ParseDefination (parseFuel (tokensOf s)) (tokensOf s) BinopPrecedence

/-- End-to-end pipeline for a prototype. -/
def parseInputPrototype (s : String) : PResult PrototypeAST :=
  ParsePrototype (tokensOf s) BinopPrecedence

/-- Table evolution of one parsing step: the new table is the old one with
zero or more entries appended, each with precedence `0` and keyed by a
character that occurs as a `tok_char` token of the stream (those are exactly
the `std::map::operator[]` default-insertions of `GetTokPrecedence`). -/
def TExt (ts : List Token) (tbl tbl2 : BinopMap) : Prop :=
  ∃ zs, tbl2 = tbl ++ zs ∧ ∀ p ∈ zs, p.2 = 0 ∧ Token.tok_char p.1 ∈ ts

theorem TExt_refl (ts : List Token) (tbl : BinopMap) : TExt ts tbl tbl :=
  ⟨[], by simp, by simp⟩

theorem TExt_trans {ts : List Token} {t1 t2 t3 : BinopMap}
    (h1 : TExt ts t1 t2) (h2 : TExt ts t2 t3) : TExt ts t1 t3 := by
  obtain ⟨zs1, rfl, hz1⟩ := h1
  obtain ⟨zs2, rfl, hz2⟩ := h2
  refine ⟨zs1 ++ zs2, by simp, ?_⟩
  intro p hp
  rcases List.mem_append.1 hp with h | h
  · exact hz1 p h
  · exact hz2 p h

theorem TExt_mono {ts ts2 : List Token} {t1 t2 : BinopMap}
    (hsub : ts ⊆ ts2) (h : TExt ts t1 t2) : TExt ts2 t1 t2 := by
  obtain ⟨zs, rfl, hz⟩ := h
  exact ⟨zs, rfl, fun p hp => ⟨(hz p hp).1, hsub (hz p hp).2⟩⟩

theorem advance_eq_tail (ts : List Token) : advance ts = ts.tail := by
  cases ts <;> rfl

theorem suffix_advance (ts : List Token) : advance ts <:+ ts := by
  rw [advance_eq_tail]; exact List.tail_suffix ts

theorem curTok_mem {ts : List Token} (h : ts ≠ []) : curTok ts ∈ ts := by
  cases ts with
  | nil => exact absurd rfl h
  | cons t rest => simp [curTok]

theorem getPrec_TExt (ts : List Token) (tbl : BinopMap) :
    TExt ts tbl (GetTokPrecedence (curTok ts) tbl).2 := by
  cases hts : ts with
  | nil => exact TExt_refl _ _
  | cons t rest =>
    cases t with
    | tok_char c =>
      simp only [curTok, GetTokPrecedence]
      split
      · match h : List.lookup c tbl with
        | some v => simp only [h]; exact TExt_refl _ _
        | none =>
          simp only [h]
          exact ⟨[(c, 0)], rfl, by simp⟩
      · exact TExt_refl _ _
    | tok_eof => exact TExt_refl _ _
    | tok_def => exact TExt_refl _ _
    | tok_xtern => exact TExt_refl _ _
    | tok_identifier s => exact TExt_refl _ _
    | tok_number s => exact TExt_refl _ _

/-- Postcondition of one parser call: on success the remaining stream is a
suffix of `tsOk`, on failure of `tsErr`, and in both cases the table only
grew by zero-precedence entries for characters of `tsErr`. -/
def PPost {α : Type} (tsOk tsErr : List Token) (tbl : BinopMap) : PResult α → Prop
  | PResult.ok _ rest tbl2 => rest <:+ tsOk ∧ TExt tsErr tbl tbl2
  | PResult.err _ rest tbl2 => rest <:+ tsErr ∧ TExt tsErr tbl tbl2
  | PResult.outOfFuel => True


theorem parse_post : ∀ fuel : Nat,
    (∀ ts tbl, PPost (advance ts) ts tbl (ParsePrimay fuel ts tbl)) ∧
    (∀ idName ts tbl, PPost (advance ts) ts tbl (ParseIdentifierExpr fuel idName ts tbl)) ∧
    (∀ ts tbl, PPost (advance ts) ts tbl (ParseParenExpr fuel ts tbl)) ∧
    (∀ acc ts tbl, PPost ts ts tbl (ParseCallArgs fuel acc ts tbl)) ∧
    (∀ prec lhs ts tbl, PPost ts ts tbl (ParseBinOpRHS fuel prec lhs ts tbl)) ∧
    (∀ ts tbl, PPost (advance ts) ts tbl (ParseExpression fuel ts tbl)) := by
  intro fuel
  induction fuel with
  | zero =>
    refine ⟨?_, ?_, ?_, ?_, ?_, ?_⟩ <;> intros <;>
      simp [ParsePrimay, ParseIdentifierExpr, ParseParenExpr, ParseCallArgs,
        ParseBinOpRHS, ParseExpression, PPost]
  | succ fuel ih =>
    obtain ⟨ihP, ihI, ihPar, ihA, ihB, ihE⟩ := ih
    refine ⟨?_, ?_, ?_, ?_, ?_, ?_⟩
    · -- ParsePrimay
      intro ts tbl
      simp only [ParsePrimay]
      cases hc : curTok ts with
      | tok_identifier idName => exact ihI idName ts tbl
      | tok_number numStr =>
        simp only [ParseNumberExpr, PPost]
        exact ⟨List.suffix_refl _, TExt_refl _ _⟩
      | tok_char c =>
        try dsimp only
        split
        · exact ihPar ts tbl
        · simp only [PPost]
          exact ⟨List.suffix_refl _, TExt_refl _ _⟩
      | tok_eof =>
        simp only [PPost]
        exact ⟨List.suffix_refl _, TExt_refl _ _⟩
      | tok_def =>
        simp only [PPost]
        exact ⟨List.suffix_refl _, TExt_refl _ _⟩
      | tok_xtern =>
        simp only [PPost]
        exact ⟨List.suffix_refl _, TExt_refl _ _⟩
    · -- ParseIdentifierExpr
      intro idName ts tbl
      simp only [ParseIdentifierExpr]
      try dsimp only
      split
      · split
        · simp only [PPost]
          exact ⟨(suffix_advance _).trans (suffix_advance _), TExt_refl _ _⟩
        · have hA := ihA [] (advance (advance ts)) tbl
          cases hA2 : ParseCallArgs fuel [] (advance (advance ts)) tbl with
          | ok args ts3 tbl3 =>
            rw [hA2] at hA
            simp only [PPost] at hA ⊢
            obtain ⟨hs, ht⟩ := hA
            refine ⟨((suffix_advance ts3).trans hs).trans (suffix_advance _), ?_⟩
            exact TExt_mono ((suffix_advance (advance ts)).trans (suffix_advance ts)).subset ht
          | err m ts3 tbl3 =>
            rw [hA2] at hA
            simp only [PPost] at hA ⊢
            obtain ⟨hs, ht⟩ := hA
            refine ⟨(hs.trans (suffix_advance _)).trans (suffix_advance _), ?_⟩
            exact TExt_mono ((suffix_advance (advance ts)).trans (suffix_advance ts)).subset ht
          | outOfFuel => simp [PPost]
      · simp only [PPost]
        exact ⟨List.suffix_refl _, TExt_refl _ _⟩
    · -- ParseParenExpr
      intro ts tbl
      simp only [ParseParenExpr]
      try dsimp only
      cases hE2 : ParseExpression fuel (advance ts) tbl with
      | ok v ts2 tbl2 =>
        have hE := ihE (advance ts) tbl
        rw [hE2] at hE
        simp only [PPost] at hE
        obtain ⟨hs, ht⟩ := hE
        try dsimp only
        split
        · simp only [PPost]
          exact ⟨(suffix_advance ts2).trans (hs.trans (suffix_advance _)),
            TExt_mono (suffix_advance ts).subset ht⟩
        · simp only [PPost]
          exact ⟨(hs.trans (suffix_advance _)).trans (suffix_advance _),
            TExt_mono (suffix_advance ts).subset ht⟩
      | err m ts2 tbl2 =>
        have hE := ihE (advance ts) tbl
        rw [hE2] at hE
        simp only [PPost] at hE ⊢
        obtain ⟨hs, ht⟩ := hE
        exact ⟨hs.trans (suffix_advance _), TExt_mono (suffix_advance ts).subset ht⟩
      | outOfFuel => simp [PPost]
    · -- ParseCallArgs
      intro acc ts tbl
      simp only [ParseCallArgs]
      cases hE2 : ParseExpression fuel ts tbl with
      | ok arg ts1 tbl1 =>
        have hE := ihE ts tbl
        rw [hE2] at hE
        simp only [PPost] at hE
        obtain ⟨hs1, ht1⟩ := hE
        have hs1' : ts1 <:+ ts := hs1.trans (suffix_advance _)
        try dsimp only
        split
        · simp only [PPost]
          exact ⟨hs1', ht1⟩
        · split
          · have hA := ihA (acc ++ [arg]) (advance ts1) tbl1
            cases hA2 : ParseCallArgs fuel (acc ++ [arg]) (advance ts1) tbl1 with
            | ok args ts3 tbl3 =>
              rw [hA2] at hA
              simp only [PPost] at hA ⊢
              obtain ⟨hs3, ht3⟩ := hA
              refine ⟨(hs3.trans (suffix_advance _)).trans hs1', ?_⟩
              exact TExt_trans ht1 (TExt_mono ((suffix_advance ts1).trans hs1').subset ht3)
            | err m ts3 tbl3 =>
              rw [hA2] at hA
              simp only [PPost] at hA ⊢
              obtain ⟨hs3, ht3⟩ := hA
              refine ⟨(hs3.trans (suffix_advance _)).trans hs1', ?_⟩
              exact TExt_trans ht1 (TExt_mono ((suffix_advance ts1).trans hs1').subset ht3)
            | outOfFuel => simp [PPost]
          · simp only [PPost]
            exact ⟨hs1', ht1⟩
      | err m ts1 tbl1 =>
        have hE := ihE ts tbl
        rw [hE2] at hE
        simp only [PPost] at hE ⊢
        exact hE
      | outOfFuel => simp [PPost]
    · -- ParseBinOpRHS
      intro prec lhs ts tbl
      simp only [ParseBinOpRHS]
      have hGP := getPrec_TExt ts tbl
      cases hGP2 : GetTokPrecedence (curTok ts) tbl with
      | mk tokPrec tbl1 =>
        rw [hGP2] at hGP
        dsimp only at hGP ⊢
        split
        · simp only [PPost]
          exact ⟨List.suffix_refl _, hGP⟩
        · cases hP2 : ParsePrimay fuel (advance ts) tbl1 with
          | ok rhs ts2 tbl2 =>
            have hP := ihP (advance ts) tbl1
            rw [hP2] at hP
            simp only [PPost] at hP
            obtain ⟨hs2, ht2⟩ := hP
            have hsts2 : ts2 <:+ ts :=
              (hs2.trans (suffix_advance _)).trans (suffix_advance _)
            have ht2' : TExt ts tbl tbl2 :=
              TExt_trans hGP (TExt_mono (suffix_advance ts).subset ht2)
            have ht3 : TExt ts tbl (GetTokPrecedence (curTok ts2) tbl2).2 :=
              TExt_trans ht2' (TExt_mono hsts2.subset (getPrec_TExt ts2 tbl2))
            try dsimp only
            split
            · cases hB2 : ParseBinOpRHS fuel (tokPrec + 1) rhs ts2
                  (GetTokPrecedence (curTok ts2) tbl2).2 with
              | ok rhs2 ts3 tbl4 =>
                have hB := ihB (tokPrec + 1) rhs ts2 ((GetTokPrecedence (curTok ts2) tbl2).2)
                rw [hB2] at hB
                simp only [PPost] at hB
                obtain ⟨hs3, ht4⟩ := hB
                have hsts3 : ts3 <:+ ts := hs3.trans hsts2
                have ht4' : TExt ts tbl tbl4 :=
                  TExt_trans ht3 (TExt_mono hsts2.subset ht4)
                try dsimp only
                cases hB3 : ParseBinOpRHS fuel prec
                    (ExprAST.BinaryExprAST (tokOpChar (curTok ts)) lhs rhs2) ts3 tbl4 with
                | ok vf tsf tblf =>
                  have hB' := ihB prec (ExprAST.BinaryExprAST (tokOpChar (curTok ts)) lhs rhs2) ts3 tbl4
                  rw [hB3] at hB'
                  simp only [PPost] at hB' ⊢
                  obtain ⟨hsf, htf⟩ := hB'
                  exact ⟨hsf.trans hsts3, TExt_trans ht4' (TExt_mono hsts3.subset htf)⟩
                | err m tsf tblf =>
                  have hB' := ihB prec (ExprAST.BinaryExprAST (tokOpChar (curTok ts)) lhs rhs2) ts3 tbl4
                  rw [hB3] at hB'
                  simp only [PPost] at hB' ⊢
                  obtain ⟨hsf, htf⟩ := hB'
                  exact ⟨hsf.trans hsts3, TExt_trans ht4' (TExt_mono hsts3.subset htf)⟩
                | outOfFuel => simp [PPost]
              | err m ts3 tbl4 =>
                have hB := ihB (tokPrec + 1) rhs ts2 ((GetTokPrecedence (curTok ts2) tbl2).2)
                rw [hB2] at hB
                simp only [PPost] at hB ⊢
                obtain ⟨hs3, ht4⟩ := hB
                exact ⟨hs3.trans hsts2, TExt_trans ht3 (TExt_mono hsts2.subset ht4)⟩
              | outOfFuel => simp [PPost]
            · cases hB3 : ParseBinOpRHS fuel prec
                  (ExprAST.BinaryExprAST (tokOpChar (curTok ts)) lhs rhs) ts2
                  (GetTokPrecedence (curTok ts2) tbl2).2 with
              | ok vf tsf tblf =>
                have hB' := ihB prec (ExprAST.BinaryExprAST (tokOpChar (curTok ts)) lhs rhs) ts2
                  ((GetTokPrecedence (curTok ts2) tbl2).2)
                rw [hB3] at hB'
                simp only [PPost] at hB' ⊢
                obtain ⟨hsf, htf⟩ := hB'
                exact ⟨hsf.trans hsts2, TExt_trans ht3 (TExt_mono hsts2.subset htf)⟩
              | err m tsf tblf =>
                have hB' := ihB prec (ExprAST.BinaryExprAST (tokOpChar (curTok ts)) lhs rhs) ts2
                  ((GetTokPrecedence (curTok ts2) tbl2).2)
                rw [hB3] at hB'
                simp only [PPost] at hB' ⊢
                obtain ⟨hsf, htf⟩ := hB'
                exact ⟨hsf.trans hsts2, TExt_trans ht3 (TExt_mono hsts2.subset htf)⟩
              | outOfFuel => simp [PPost]
          | err m ts2 tbl2 =>
            have hP := ihP (advance ts) tbl1
            rw [hP2] at hP
            simp only [PPost] at hP ⊢
            obtain ⟨hs2, ht2⟩ := hP
            exact ⟨hs2.trans (suffix_advance _),
              TExt_trans hGP (TExt_mono (suffix_advance ts).subset ht2)⟩
          | outOfFuel => simp [PPost]
    · -- ParseExpression
      intro ts tbl
      simp only [ParseExpression]
      cases hP2 : ParsePrimay fuel ts tbl with
      | ok lhs ts1 tbl1 =>
        have hP := ihP ts tbl
        rw [hP2] at hP
        simp only [PPost] at hP
        obtain ⟨hs1, ht1⟩ := hP
        try dsimp only
        cases hB2 : ParseBinOpRHS fuel 0 lhs ts1 tbl1 with
        | ok vf tsf tblf =>
          have hB := ihB 0 lhs ts1 tbl1
          rw [hB2] at hB
          simp only [PPost] at hB ⊢
          obtain ⟨hsf, htf⟩ := hB
          exact ⟨hsf.trans hs1,
            TExt_trans ht1 (TExt_mono (hs1.trans (suffix_advance _)).subset htf)⟩
        | err m tsf tblf =>
          have hB := ihB 0 lhs ts1 tbl1
          rw [hB2] at hB
          simp only [PPost] at hB ⊢
          obtain ⟨hsf, htf⟩ := hB
          exact ⟨hsf.trans (hs1.trans (suffix_advance _)),
            TExt_trans ht1 (TExt_mono (hs1.trans (suffix_advance _)).subset htf)⟩
        | outOfFuel => simp [PPost]
      | err m ts1 tbl1 =>
        have hP := ihP ts tbl
        rw [hP2] at hP
        simp only [PPost] at hP ⊢
        exact hP
      | outOfFuel => simp [PPost]

theorem advance_length (ts : List Token) : (advance ts).length = ts.length - 1 := by
  cases ts <;> simp [advance]

theorem curTok_char_ne_nil {ts : List Token} {c : Char}
    (h : curTok ts = Token.tok_char c) : ts ≠ [] := by
  intro hn
  subst hn
  simp [curTok] at h

theorem ParsePrimay_nil (f : Nat) (tbl : BinopMap) :
    ParsePrimay (f + 1) [] tbl =
      PResult.err "unknown token when expecting an expression" [] tbl := rfl

theorem ParseExpression_nil (f : Nat) (tbl : BinopMap) :
    ParseExpression (f + 2) [] tbl =
      PResult.err "unknown token when expecting an expression" [] tbl := rfl

theorem parse_fuel : ∀ n : Nat,
    (∀ ts tbl idName fuel, ts.length ≤ n → 4 * n + 2 ≤ fuel →
      ParseIdentifierExpr fuel idName ts tbl ≠ PResult.outOfFuel) ∧
    (∀ ts tbl fuel, ts.length ≤ n → 4 * n + 3 ≤ fuel →
      ParseParenExpr fuel ts tbl ≠ PResult.outOfFuel) ∧
    (∀ ts tbl fuel, ts.length ≤ n → 4 * n + 4 ≤ fuel →
      ParsePrimay fuel ts tbl ≠ PResult.outOfFuel) ∧
    (∀ ts tbl prec lhs fuel, ts.length ≤ n → 4 * n + 2 ≤ fuel →
      ParseBinOpRHS fuel prec lhs ts tbl ≠ PResult.outOfFuel) ∧
    (∀ ts tbl fuel, ts.length ≤ n → 4 * n + 5 ≤ fuel →
      ParseExpression fuel ts tbl ≠ PResult.outOfFuel) ∧
    (∀ ts tbl acc fuel, ts.length ≤ n → 4 * n + 6 ≤ fuel →
      ParseCallArgs fuel acc ts tbl ≠ PResult.outOfFuel) := by
  intro n
  induction n using Nat.strong_induction_on with
  | _ n ih =>
    have hId : ∀ ts tbl idName fuel, ts.length ≤ n → 4 * n + 2 ≤ fuel →
        ParseIdentifierExpr fuel idName ts tbl ≠ PResult.outOfFuel := by
      intro ts tbl idName fuel hts hf
      cases fuel with
      | zero => omega
      | succ f =>
        simp only [ParseIdentifierExpr]
        try dsimp only
        split
        · next h1 =>
          have hne : advance ts ≠ [] := curTok_char_ne_nil h1
          have hlen2 : 2 ≤ ts.length := by
            have h2 := advance_length ts
            have h3 : 0 < (advance ts).length := List.length_pos.2 hne
            omega
          split
          · simp
          · cases hA2 : ParseCallArgs f [] (advance (advance ts)) tbl with
            | ok args ts3 tbl3 => simp
            | err m ts3 tbl3 => simp
            | outOfFuel =>
              have hm : (advance (advance ts)).length = ts.length - 2 := by
                rw [advance_length, advance_length]
                omega
              obtain ⟨_, _, _, _, _, ihArgs⟩ :=
                ih (advance (advance ts)).length (by omega)
              exact absurd hA2
                (ihArgs (advance (advance ts)) tbl [] f (le_refl _) (by omega))
        · simp
    have hParen : ∀ ts tbl fuel, ts.length ≤ n → 4 * n + 3 ≤ fuel →
        ParseParenExpr fuel ts tbl ≠ PResult.outOfFuel := by
      intro ts tbl fuel hts hf
      cases fuel with
      | zero => omega
      | succ f =>
        simp only [ParseParenExpr]
        try dsimp only
        by_cases hnil : ts = []
        · subst hnil
          match f, (by omega : 2 ≤ f) with
          | f2 + 2, _ =>
            rw [show advance ([] : List Token) = [] from rfl, ParseExpression_nil]
            simp
        · cases hE2 : ParseExpression f (advance ts) tbl with
          | ok v ts2 tbl2 =>
            try dsimp only
            split <;> simp
          | err m ts2 tbl2 => simp
          | outOfFuel =>
            have hl : 1 ≤ ts.length := List.length_pos.2 hnil
            have hm := advance_length ts
            obtain ⟨_, _, _, _, ihExpr, _⟩ := ih (advance ts).length (by omega)
            exact absurd hE2 (ihExpr (advance ts) tbl f (le_refl _) (by omega))
    have hPrim : ∀ ts tbl fuel, ts.length ≤ n → 4 * n + 4 ≤ fuel →
        ParsePrimay fuel ts tbl ≠ PResult.outOfFuel := by
      intro ts tbl fuel hts hf
      cases fuel with
      | zero => omega
      | succ f =>
        simp only [ParsePrimay]
        cases hc : curTok ts with
        | tok_identifier idName => exact hId ts tbl idName f hts (by omega)
        | tok_number numStr => simp [ParseNumberExpr]
        | tok_char c =>
          try dsimp only
          split
          · exact hParen ts tbl f hts (by omega)
          · simp
        | tok_eof => simp
        | tok_def => simp
        | tok_xtern => simp
    have hBin : ∀ ts tbl prec lhs fuel, ts.length ≤ n → 4 * n + 2 ≤ fuel →
        ParseBinOpRHS fuel prec lhs ts tbl ≠ PResult.outOfFuel := by
      intro ts tbl prec lhs fuel hts hf
      cases fuel with
      | zero => omega
      | succ f =>
        simp only [ParseBinOpRHS]
        try dsimp only
        split
        · simp
        · by_cases hnil : ts = []
          · subst hnil
            match f, (by omega : 1 ≤ f) with
            | f1 + 1, _ =>
              rw [show advance ([] : List Token) = [] from rfl, ParsePrimay_nil]
              simp
          · have hl : 1 ≤ ts.length := List.length_pos.2 hnil
            have hma := advance_length ts
            cases hP2 : ParsePrimay f (advance ts) ((GetTokPrecedence (curTok ts) tbl).2) with
            | ok rhs ts2 tbl2 =>
              have hpost := (parse_post f).1 (advance ts) ((GetTokPrecedence (curTok ts) tbl).2)
              rw [hP2] at hpost
              simp only [PPost] at hpost
              have hlen2 : ts2.length ≤ ts.length - 2 := by
                have := hpost.1.length_le
                have h2 := advance_length (advance ts)
                omega
              try dsimp only
              split
              · cases hB2 : ParseBinOpRHS f ((GetTokPrecedence (curTok ts) tbl).1 + 1) rhs ts2
                    ((GetTokPrecedence (curTok ts2) tbl2).2) with
                | ok rhs2 ts3 tbl4 =>
                  have hpost2 := (parse_post f).2.2.2.2.1
                    ((GetTokPrecedence (curTok ts) tbl).1 + 1) rhs ts2
                    ((GetTokPrecedence (curTok ts2) tbl2).2)
                  rw [hB2] at hpost2
                  simp only [PPost] at hpost2
                  have hlen3 : ts3.length ≤ ts2.length := hpost2.1.length_le
                  try dsimp only
                  obtain ⟨_, _, _, ihBin, _, _⟩ := ih ts3.length (by omega)
                  exact ihBin ts3 tbl4 prec _ f (le_refl _) (by omega)
                | err m ts3 tbl4 => simp
                | outOfFuel =>
                  obtain ⟨_, _, _, ihBin, _, _⟩ := ih ts2.length (by omega)
                  exact absurd hB2 (ihBin ts2 _ _ rhs f (le_refl _) (by omega))
              · obtain ⟨_, _, _, ihBin, _, _⟩ := ih ts2.length (by omega)
                exact ihBin ts2 _ prec _ f (le_refl _) (by omega)
            | err m ts2 tbl2 => simp
            | outOfFuel =>
              obtain ⟨_, _, ihPrim, _, _, _⟩ := ih (advance ts).length (by omega)
              exact absurd hP2
                (ihPrim (advance ts) ((GetTokPrecedence (curTok ts) tbl).2) f (le_refl _) (by omega))
    have hExpr : ∀ ts tbl fuel, ts.length ≤ n → 4 * n + 5 ≤ fuel →
        ParseExpression fuel ts tbl ≠ PResult.outOfFuel := by
      intro ts tbl fuel hts hf
      cases fuel with
      | zero => omega
      | succ f =>
        simp only [ParseExpression]
        cases hP2 : ParsePrimay f ts tbl with
        | ok lhs ts1 tbl1 =>
          try dsimp only
          by_cases hnil : ts = []
          · subst hnil
            match f, (by omega : 1 ≤ f) with
            | f1 + 1, _ =>
              rw [ParsePrimay_nil] at hP2
              simp at hP2
          · have hl : 1 ≤ ts.length := List.length_pos.2 hnil
            have hma := advance_length ts
            have hpost := (parse_post f).1 ts tbl
            rw [hP2] at hpost
            simp only [PPost] at hpost
            have hlen1 : ts1.length ≤ ts.length - 1 := by
              have := hpost.1.length_le
              omega
            obtain ⟨_, _, _, ihBin, _, _⟩ := ih ts1.length (by omega)
            exact ihBin ts1 tbl1 0 lhs f (le_refl _) (by omega)
        | err m ts1 tbl1 => simp
        | outOfFuel => exact absurd hP2 (hPrim ts tbl f hts (by omega))
    have hArgs : ∀ ts tbl acc fuel, ts.length ≤ n → 4 * n + 6 ≤ fuel →
        ParseCallArgs fuel acc ts tbl ≠ PResult.outOfFuel := by
      intro ts tbl acc fuel hts hf
      cases fuel with
      | zero => omega
      | succ f =>
        simp only [ParseCallArgs]
        cases hE2 : ParseExpression f ts tbl with
        | ok arg ts1 tbl1 =>
          try dsimp only
          split
          · simp
          · split
            · by_cases hnil : ts = []
              · subst hnil
                match f, (by omega : 2 ≤ f) with
                | f2 + 2, _ =>
                  rw [ParseExpression_nil] at hE2
                  simp at hE2
              · have hl : 1 ≤ ts.length := List.length_pos.2 hnil
                have hma := advance_length ts
                have hpost := (parse_post f).2.2.2.2.2 ts tbl
                rw [hE2] at hpost
                simp only [PPost] at hpost
                have hlen1 : ts1.length ≤ ts.length - 1 := by
                  have := hpost.1.length_le
                  have := advance_length ts
                  omega
                have hma1 := advance_length ts1
                obtain ⟨_, _, _, _, _, ihArgs⟩ := ih (advance ts1).length (by omega)
                exact ihArgs (advance ts1) tbl1 _ f (le_refl _) (by omega)
            · simp
        | err m ts1 tbl1 => simp
        | outOfFuel => exact absurd hE2 (hExpr ts tbl f hts (by omega))
    exact ⟨hId, hParen, hPrim, hBin, hExpr, hArgs⟩

theorem protoArgs_suffix : ∀ ts acc, (protoArgs acc ts).2 <:+ ts := by
  intro ts
  induction ts with
  | nil => intro acc; simp [protoArgs]
  | cons t rest ih =>
    intro acc
    simp only [protoArgs]
    cases rest with
    | nil => simp [protoArgs]
    | cons t2 rest2 =>
      cases t2 with
      | tok_identifier s =>
        try dsimp only
        exact (ih (acc ++ [s])).trans (List.suffix_cons t _)
      | tok_eof => exact List.suffix_cons t _
      | tok_def => exact List.suffix_cons t _
      | tok_xtern => exact List.suffix_cons t _
      | tok_number numStr => exact List.suffix_cons t _
      | tok_char c => exact List.suffix_cons t _

/-- `ParsePrototype` terminates, consumes only a prefix of the stream, and
never touches the precedence table. -/
theorem ParsePrototype_post (ts : List Token) (tbl : BinopMap) :
    match ParsePrototype ts tbl with
    | PResult.ok _ rest tbl2 => rest <:+ ts ∧ tbl2 = tbl
    | PResult.err _ rest tbl2 => rest <:+ ts ∧ tbl2 = tbl
    | PResult.outOfFuel => False := by
  simp only [ParsePrototype]
  cases hc : curTok ts with
  | tok_identifier fnName =>
    try dsimp only
    split
    · next proto ts2 tbl2 heq =>
      split at heq
      · split at heq
        · cases heq
          refine ⟨?_, rfl⟩
          exact ((suffix_advance _).trans (protoArgs_suffix (advance ts) [])).trans
            (suffix_advance ts)
        · simp at heq
      · simp at heq
    · next m ts2 tbl2 heq =>
      split at heq
      · split at heq
        · simp at heq
        · cases heq
          exact ⟨(protoArgs_suffix (advance ts) []).trans (suffix_advance ts), rfl⟩
      · cases heq
        exact ⟨suffix_advance ts, rfl⟩
    · next heq =>
      split at heq
      · split at heq <;> simp at heq
      · simp at heq
  | tok_eof => exact ⟨List.suffix_refl _, rfl⟩
  | tok_def => exact ⟨List.suffix_refl _, rfl⟩
  | tok_xtern => exact ⟨List.suffix_refl _, rfl⟩
  | tok_number numStr => exact ⟨List.suffix_refl _, rfl⟩
  | tok_char c => exact ⟨List.suffix_refl _, rfl⟩

/-- The effective precedence a lookup yields for character `c` — what
`GetTokPrecedence` returns for `tok_char c` when `c` is ASCII: the stored
value when positive, `-1` otherwise (an absent key reads as the
default-inserted `0`, hence also `-1`). -/
def effPrec (c : Char) (tbl : BinopMap) : Int :=
  match tbl.lookup c with
  | some v => if v ≤ 0 then -1 else v
  | none => -1

theorem lookup_append (l1 l2 : BinopMap) (c : Char) :
    (l1 ++ l2).lookup c =
      match l1.lookup c with
      | some v => some v
      | none => l2.lookup c := by
  induction l1 with
  | nil => simp [List.lookup]
  | cons p l1 ih =>
    cases p with
    | mk a v =>
      simp only [List.cons_append, List.lookup]
      split <;> simp [ih]

theorem lookup_some_mem {tbl : BinopMap} {c : Char} {v : Int}
    (h : tbl.lookup c = some v) : (c, v) ∈ tbl := by
  induction tbl with
  | nil => simp [List.lookup] at h
  | cons p rest ih =>
    cases p with
    | mk a b =>
      simp only [List.lookup] at h
      split at h
      · next hbeq =>
        cases h
        have : c = a := by simpa using hbeq
        subst this
        simp
      · exact List.mem_cons_of_mem _ (ih h)

theorem TExt_effPrec {ts : List Token} {tbl tbl2 : BinopMap}
    (h : TExt ts tbl tbl2) (c : Char) : effPrec c tbl2 = effPrec c tbl := by
  obtain ⟨zs, rfl, hz⟩ := h
  unfold effPrec
  rw [lookup_append]
  cases hl : tbl.lookup c with
  | some v => simp
  | none =>
    cases hz2 : zs.lookup c with
    | none => simp
    | some v =>
      have hv : v = 0 := (hz _ (lookup_some_mem hz2)).1
      subst hv
      simp

/-- Table reached after a parsing call; an out-of-fuel result keeps the
table it started from. -/
def tableOf {α : Type} (r : PResult α) (tbl : BinopMap) : BinopMap :=
  match r with
  | PResult.ok _ _ tbl2 => tbl2
  | PResult.err _ _ tbl2 => tbl2
  | PResult.outOfFuel => tbl

def isCharTok : Token → Bool
  | Token.tok_char _ => true
  | _ => false

/-- True when no token of the stream is a `tok_char` — the case for every
stream the repository's lexer actually produces. -/
def noCharTok (ts : List Token) : Bool :=
  ts.all fun t => !(isCharTok t)

theorem PPost_TExt {α : Type} {tsOk tsErr : List Token} {tbl : BinopMap}
    {r : PResult α} (h : PPost tsOk tsErr tbl r) : TExt tsErr tbl (tableOf r tbl) := by
  cases r with
  | ok v rest tbl2 => exact h.2
  | err m rest tbl2 => exact h.2
  | outOfFuel => exact TExt_refl _ _

theorem TExt_noChar {ts : List Token} {tbl tbl2 : BinopMap}
    (h : TExt ts tbl tbl2) (hnc : noCharTok ts = true) : tbl2 = tbl := by
  obtain ⟨zs, rfl, hz⟩ := h
  cases zs with
  | nil => simp
  | cons p zs2 =>
    exfalso
    have hmem := (hz p (by simp)).2
    simp only [noCharTok, List.all_eq_true] at hnc
    have := hnc _ hmem
    simp [isCharTok] at this

theorem lexAllN_noChar :
    ∀ fuel l i ts, lexAllN fuel l i = some ts → noCharTok ts = true := by
  intro fuel
  induction fuel with
  | zero => intro l i ts h; simp [lexAllN] at h
  | succ fuel ih =>
    intro l i ts h
    simp only [lexAllN] at h
    cases hg : gettok l i with
    | mk t rest =>
      rw [hg] at h
      try dsimp only at h
      split at h
      · cases h; simp [noCharTok]
      · cases hr : lexAllN fuel rest.1 rest.2 with
        | none => rw [hr] at h; simp at h
        | some ts2 =>
          rw [hr] at h
          cases h
          have h1 := ih rest.1 rest.2 ts2 hr
          have h2 : isCharTok t = false := by
            cases t with
            | tok_char c2 =>
              have hx := gettok_ne_char l i c2
              rw [hg] at hx
              exact absurd rfl hx
            | tok_eof => rfl
            | tok_def => rfl
            | tok_xtern => rfl
            | tok_identifier s2 => rfl
            | tok_number s2 => rfl
          simp [noCharTok, List.all_eq_true] at h1 ⊢
          exact ⟨by simp [h2], h1⟩

theorem tokensOf_noChar (s : String) : noCharTok (tokensOf s) = true :=
  lexAllN_noChar _ _ _ _ (tokensOf_eq s)

theorem numChar_class {c : Char} (h : (isdigit c || c = '.') = true) :
    isspace c = false ∧ isalpha c = false := by
  have h' : isdigit c = true ∨ c = '.' := by simpa using h
  rcases h' with hd | hdot
  · simp only [isdigit, Bool.and_eq_true, decide_eq_true_eq] at hd
    refine ⟨?_, ?_⟩
    · simp only [isspace, Bool.or_eq_false_iff, Bool.and_eq_false_iff,
        decide_eq_false_iff_not]
      omega
    · simp only [isalpha, Bool.or_eq_false_iff, Bool.and_eq_false_iff,
        decide_eq_false_iff_not]
      omega
  · subst hdot
    exact ⟨by decide, by decide⟩

theorem readNum_all : ∀ rest (acc : String) (c : Char),
    (∀ x ∈ rest, (isdigit x || x = '.') = true) →
    readNum acc c rest = (⟨acc.data ++ c :: rest⟩, none, []) := by
  intro rest
  induction rest with
  | nil =>
    intro acc c h
    simp only [readNum]
    rfl
  | cons d rest2 ih =>
    intro acc c h
    simp only [readNum]
    rw [if_pos (h d (by simp))]
    rw [ih (acc.push c) d (fun x hx => h x (by simp [hx]))]
    simp only [Prod.mk.injEq, and_true]
    show (⟨(acc.data ++ [c]) ++ d :: rest2⟩ : String) = ⟨acc.data ++ c :: d :: rest2⟩
    rw [List.append_assoc]
    rfl

theorem gettokN_succ (fuel : Nat) (last : Option Char) (input : List Char) :
    gettokN (fuel + 1) last input =
      match skipSpaces last input with
      | (some c, input1) =>
        if isalpha c then
          match readAlnum (String.singleton c) input1 with
          | (s, last2, input2) =>
            if s = "def" then some (Token.tok_def, last2, input2)
            else if s = "extern" then some (Token.tok_xtern, last2, input2)
            else some (Token.tok_identifier s, last2, input2)
        else if isdigit c || c = '.' then
          match readNum "" c input1 with
          | (s, last2, input2) => some (Token.tok_number s, last2, input2)
        else if c = '#' then
          match skipComment input1 with
          | (some c2, input2) => gettokN fuel (some c2) input2
          | (none, input2) =>
            match getchar input2 with
            | (last2, input3) => some (Token.tok_eof, last2, input3)
        else
          some (Token.tok_eof, some c, input1)
      | (none, input1) =>
        match getchar input1 with
        | (last2, input3) => some (Token.tok_eof, last2, input3) := rfl

theorem gettok_num (c : Char) (rest : List Char)
    (hc : (isdigit c || c = '.') = true)
    (hrest : ∀ x ∈ rest, (isdigit x || x = '.') = true) :
    gettok (some ' ') (c :: rest) = (Token.tok_number ⟨c :: rest⟩, none, []) := by
  have hcls := numChar_class hc
  have hss : skipSpaces (some ' ') (c :: rest) = (some c, rest) := by
    have h1 : skipSpaces (some ' ') (c :: rest) = skipSpaces (some c) rest := by
      simp only [skipSpaces]
      rw [if_pos (by decide)]
    rw [h1]
    cases rest with
    | nil =>
      simp only [skipSpaces]
      rw [if_neg (by simp [hcls.1])]
    | cons d r2 =>
      simp only [skipSpaces]
      rw [if_neg (by simp [hcls.1])]
  have hN : gettokN ((c :: rest).length + 1) (some ' ') (c :: rest) =
      some (Token.tok_number ⟨c :: rest⟩, none, []) := by
    rw [gettokN_succ]
    rw [hss]
    try dsimp only
    rw [if_neg (by simp [hcls.2]), if_pos hc]
    rw [readNum_all rest "" c hrest]
    rfl
  show (match gettokN ((c :: rest).length + 1) (some ' ') (c :: rest) with
    | some r => r
    | none => (Token.tok_eof, none, [])) = (Token.tok_number ⟨c :: rest⟩, none, [])
  rw [hN]

theorem lexAllN_succ (fuel : Nat) (l : Option Char) (i : List Char) :
    lexAllN (fuel + 1) l i =
      match gettok l i with
      | (t, last2, input2) =>
        if t = Token.tok_eof then some []
        else
          match lexAllN fuel last2 input2 with
          | some ts => some (t :: ts)
          | none => none := rfl

theorem tokensOf_num (s : String) (h1 : s.data ≠ [])
    (h2 : ∀ c ∈ s.data, (isdigit c || c = '.') = true) :
    tokensOf s = [Token.tok_number s] := by
  obtain ⟨c, rest, hdata⟩ : ∃ c rest, s.data = c :: rest := by
    cases hd : s.data with
    | nil => exact absurd hd h1
    | cons c rest => exact ⟨c, rest, rfl⟩
  have hs : (⟨c :: rest⟩ : String) = s := by rw [← hdata]
  have hg := gettok_num c rest (h2 c (by rw [hdata]; simp))
    (fun x hx => h2 x (by rw [hdata]; simp [hx]))
  have hnil : lexAllN ((c :: rest).length + 1) none [] = some [] := rfl
  have hlex : lexAllN ((c :: rest).length + 2) (some ' ') (c :: rest) =
      some [Token.tok_number s] := by
    show lexAllN ((c :: rest).length + 1 + 1) (some ' ') (c :: rest) =
      some [Token.tok_number s]
    rw [lexAllN_succ]
    rw [hg]
    try dsimp only
    rw [if_neg (by simp)]
    rw [hnil, hs]
  have h3 := tokensOf_eq s
  rw [hdata] at h3
  rw [hlex] at h3
  exact (Option.some.inj h3).symm

theorem skipSpaces_nospace {c : Char} (h : isspace c = false) (input : List Char) :
    skipSpaces (some c) input = (some c, input) := by
  cases input with
  | nil =>
    simp only [skipSpaces]
    rw [if_neg (by simp [h])]
  | cons d r =>
    simp only [skipSpaces]
    rw [if_neg (by simp [h])]

/-- C1: the claim says a pending unrecognized non-EOF character yields a
`Symbol` token carrying that character, and `tok_eof` comes exactly at
end-of-input.  The code does the opposite: the inverted guard
`if (LastChar != EOF) return tok_eof;` at toy.cpp:84 makes `gettok` return
`tok_eof` for every such pending character, without consuming it, and a
`Symbol` (ASCII-code) token is never returned at all. -/
theorem claim_C1_gettok_symbol_code_bug :
    (∀ c input, isspace c = false → isalpha c = false →
      (isdigit c || c = '.') = false → c ≠ '#' →
      gettok (some c) input = (Token.tok_eof, some c, input)) ∧
    (∀ l i c, (gettok l i).1 ≠ Token.tok_char c) := by
  constructor
  · intro c input h1 h2 h3 h4
    have hN : gettokN (input.length + 1) (some c) input =
        some (Token.tok_eof, some c, input) := by
      rw [gettokN_succ, skipSpaces_nospace h1]
      try dsimp only
      rw [if_neg (by simp [h2]), if_neg (by simp [h3]), if_neg h4]
    show (match gettokN (input.length + 1) (some c) input with
      | some r => r
      | none => (Token.tok_eof, none, [])) = (Token.tok_eof, some c, input)
    rw [hN]
  · exact fun l i c => gettok_ne_char l i c

/-- Witness for C1 at the concrete pending character `'+'`. -/
theorem claim_C1_gettok_symbol_witness :
    gettok (some '+') [] = (Token.tok_eof, some '+', []) :=
  claim_C1_gettok_symbol_code_bug.1 '+' [] (by decide) (by decide) (by decide)
    (by decide)

/-- C2: through the real lexer the three inputs parse to `NumberLiteral(1)`
alone — the lexer bug at toy.cpp:84 turns the first operator character into
`tok_eof` — while on the token streams the spec's lexer rules assign to
these inputs, the parser does produce exactly the claimed trees (so the
claim is right about the parser and wrong only through the lexer slip). -/
theorem claim_C2_precedence_assoc_code_bug :
    parseInputExpr "1+2*3" =
      PResult.ok (ExprAST.NumberExprAST "1") [] BinopPrecedence ∧
    parseInputExpr "1*2+3" =
      PResult.ok (ExprAST.NumberExprAST "1") [] BinopPrecedence ∧
    parseInputExpr "1-2-3" =
      PResult.ok (ExprAST.NumberExprAST "1") [] BinopPrecedence ∧
    ParseExpression 99 [Token.tok_number "1", Token.tok_char '+',
        Token.tok_number "2", Token.tok_char '*', Token.tok_number "3"]
      BinopPrecedence =
      PResult.ok
        (ExprAST.BinaryExprAST '+' (ExprAST.NumberExprAST "1")
          (ExprAST.BinaryExprAST '*' (ExprAST.NumberExprAST "2")
            (ExprAST.NumberExprAST "3")))
        [] BinopPrecedence ∧
    ParseExpression 99 [Token.tok_number "1", Token.tok_char '*',
        Token.tok_number "2", Token.tok_char '+', Token.tok_number "3"]
      BinopPrecedence =
      PResult.ok
        (ExprAST.BinaryExprAST '+'
          (ExprAST.BinaryExprAST '*' (ExprAST.NumberExprAST "1")
            (ExprAST.NumberExprAST "2"))
          (ExprAST.NumberExprAST "3"))
        [] BinopPrecedence ∧
    ParseExpression 99 [Token.tok_number "1", Token.tok_char '-',
        Token.tok_number "2", Token.tok_char '-', Token.tok_number "3"]
      BinopPrecedence =
      PResult.ok
        (ExprAST.BinaryExprAST '-'
          (ExprAST.BinaryExprAST '-' (ExprAST.NumberExprAST "1")
            (ExprAST.NumberExprAST "2"))
          (ExprAST.NumberExprAST "3"))
        [] BinopPrecedence :=
  ⟨rfl, rfl, rfl, rfl, rfl, rfl⟩

/-- C3: through the real lexer `"(1+2)*3"` fails outright — `'('` lexes as
`tok_eof` — while on the spec-level token stream the parser does produce the
claimed tree (the parenthesized group binds before `*`), additionally
default-inserting the zero entry `(')', 0)` into the precedence table. -/
theorem claim_C3_paren_grouping_code_bug :
    parseInputExpr "(1+2)*3" =
      PResult.err "unknown token when expecting an expression" []
        BinopPrecedence ∧
    ParseExpression 99 [Token.tok_char '(', Token.tok_number "1",
        Token.tok_char '+', Token.tok_number "2", Token.tok_char ')',
        Token.tok_char '*', Token.tok_number "3"] BinopPrecedence =
      PResult.ok
        (ExprAST.BinaryExprAST '*'
          (ExprAST.BinaryExprAST '+' (ExprAST.NumberExprAST "1")
            (ExprAST.NumberExprAST "2"))
          (ExprAST.NumberExprAST "3"))
        [] (BinopPrecedence ++ [(')', 0)]) :=
  ⟨rfl, rfl⟩

/-- C4: through the real lexer both call inputs collapse to the variable
reference `foo` — `'('` lexes as `tok_eof`, so the parser never sees the
argument list — while on the spec-level token streams the parser produces
exactly the claimed `CallExpression` nodes (including the zero-argument
call). -/
theorem claim_C4_call_parsing_code_bug :
    parseInputExpr "foo(1, 2+3)" =
      PResult.ok (ExprAST.VariableExprAST "foo") [] BinopPrecedence ∧
    parseInputExpr "foo()" =
      PResult.ok (ExprAST.VariableExprAST "foo") [] BinopPrecedence ∧
    ParseExpression 99 [Token.tok_identifier "foo", Token.tok_char '(',
        Token.tok_number "1", Token.tok_char ',', Token.tok_number "2",
        Token.tok_char '+', Token.tok_number "3", Token.tok_char ')']
      BinopPrecedence =
      PResult.ok
        (ExprAST.CallExprAST "foo"
          [ExprAST.NumberExprAST "1",
            ExprAST.BinaryExprAST '+' (ExprAST.NumberExprAST "2")
              (ExprAST.NumberExprAST "3")])
        [] (BinopPrecedence ++ [(',', 0), (')', 0)]) ∧
    ParseExpression 99 [Token.tok_identifier "foo", Token.tok_char '(',
        Token.tok_char ')'] BinopPrecedence =
      PResult.ok (ExprAST.CallExprAST "foo" []) [] BinopPrecedence :=
  ⟨rfl, rfl, rfl, rfl⟩

/-- C5: through the real lexer the three failure scenarios do not behave as
claimed — `"(1+2"` fails with the wrong message, `"foo(1 2)"` *succeeds* as
a variable reference, and only `"def () x"` coincidentally produces the
claimed message — while on the spec-level token streams each input fails
with exactly the message the claim names. -/
theorem claim_C5_error_messages_code_bug :
    parseInputExpr "(1+2" =
      PResult.err "unknown token when expecting an expression" []
        BinopPrecedence ∧
    parseInputExpr "foo(1 2)" =
      PResult.ok (ExprAST.VariableExprAST "foo") [] BinopPrecedence ∧
    parseInputDefination "def () x" =
      PResult.err "Expected function name in prototype" [] BinopPrecedence ∧
    ParseExpression 99 [Token.tok_char '(', Token.tok_number "1",
        Token.tok_char '+', Token.tok_number "2"] BinopPrecedence =
      PResult.err "expected ')'" [] BinopPrecedence ∧
    ParseExpression 99 [Token.tok_identifier "foo", Token.tok_char '(',
        Token.tok_number "1", Token.tok_number "2", Token.tok_char ')']
      BinopPrecedence =
      PResult.err "Expected ')' or ',' in argument list"
        [Token.tok_number "2", Token.tok_char ')'] BinopPrecedence ∧
    ParseDefination 99 [Token.tok_def, Token.tok_char '(', Token.tok_char ')',
        Token.tok_identifier "x"] BinopPrecedence =
      PResult.err "Expected function name in prototype"
        [Token.tok_char '(', Token.tok_char ')', Token.tok_identifier "x"]
        BinopPrecedence :=
  ⟨rfl, rfl, rfl, rfl, rfl, rfl⟩

/-- C6: through the real lexer `"bar(x y)"` fails with
"Expected '(' in prototype" — `'('` lexes as `tok_eof` — while on the
spec-level token stream `ParsePrototype` produces exactly
`Prototype("bar", ["x", "y"])`. -/
theorem claim_C6_prototype_code_bug :
    parseInputPrototype "bar(x y)" =
      PResult.err "Expected '(' in prototype" [] BinopPrecedence ∧
    ParsePrototype [Token.tok_identifier "bar", Token.tok_char '(',
        Token.tok_identifier "x", Token.tok_identifier "y", Token.tok_char ')']
      BinopPrecedence =
      PResult.ok (PrototypeAST.mk "bar" ["x", "y"]) [] BinopPrecedence :=
  ⟨rfl, rfl⟩

/-- C7: an input that is one numeric literal parses to exactly that
`NumberLiteral` with nothing left over and `tok_eof` as the lookahead (this
survives the lexer bug because at true end-of-input `ThisChar = EOF = -1`
coincides with `tok_eof`). -/
theorem claim_C7_single_number_ok : ∀ s : String, s.data ≠ [] →
    (∀ c ∈ s.data, (isdigit c || c = '.') = true) →
    parseInputExpr s = PResult.ok (ExprAST.NumberExprAST s) [] BinopPrecedence ∧
    curTok [] = Token.tok_eof := by
  intro s h1 h2
  refine ⟨?_, rfl⟩
  unfold parseInputExpr
  rw [tokensOf_num s h1 h2]
  rfl

/-- Witness for C7 at the concrete literal `"42"`. -/
theorem claim_C7_single_number_witness :
    "42".data ≠ [] ∧ (∀ c ∈ "42".data, (isdigit c || c = '.') = true) ∧
    parseInputExpr "42" =
      PResult.ok (ExprAST.NumberExprAST "42") [] BinopPrecedence :=
  ⟨by decide, by decide, (claim_C7_single_number_ok "42" (by decide) (by decide)).1⟩

/-- C8 counterexample: the claim says no parsing operation adds, removes,
or changes any entry of the precedence table, for every input token stream.
Parsing the two-token stream `1 )` refutes it: the precedence lookup on the
`)` lookahead is `BinopPrecedence[')']`, and `std::map::operator[]`
default-inserts the entry `(')', 0)`, so the table after the parse differs
from the table before it. -/
theorem claim_C8_table_counterexample :
    ParseExpression 12 [Token.tok_number "1", Token.tok_char ')']
      BinopPrecedence =
      PResult.ok (ExprAST.NumberExprAST "1") [Token.tok_char ')']
        (BinopPrecedence ++ [(')', 0)]) ∧
    BinopPrecedence ++ [(')', 0)] ≠ BinopPrecedence :=
  ⟨rfl, by decide⟩

/-- C8 amended: parsing never removes or changes an existing table entry and
never adds a positive-precedence one — every entry it adds is a
`std::map::operator[]` default-insertion `(c, 0)` for a symbol character `c`
occurring in the stream (`TExt`) — so the effective precedence of every
character is unchanged; prototype and extern parsing leave the table exactly
unchanged; and on a stream with no `tok_char` token — which includes every
stream the repository's lexer produces — expression parsing leaves the table
exactly unchanged. -/
theorem claim_C8_table_amended : ∀ fuel ts tbl,
    TExt ts tbl (tableOf (ParseExpression fuel ts tbl) tbl) ∧
    (∀ c, effPrec c (tableOf (ParseExpression fuel ts tbl) tbl) = effPrec c tbl) ∧
    (noCharTok ts = true → tableOf (ParseExpression fuel ts tbl) tbl = tbl) ∧
    TExt ts tbl (tableOf (ParseDefination fuel ts tbl) tbl) ∧
    tableOf (ParsePrototype ts tbl) tbl = tbl ∧
    tableOf (ParseExternProto ts tbl) tbl = tbl ∧
    TExt ts tbl (tableOf (ParseTopLevelExpr fuel ts tbl) tbl) ∧
    (∀ s, tableOf (ParseExpression fuel (tokensOf s) tbl) tbl = tbl) := by
  intro fuel ts tbl
  have hE : ∀ ts2 : List Token,
      TExt ts2 tbl (tableOf (ParseExpression fuel ts2 tbl) tbl) :=
    fun ts2 => PPost_TExt ((parse_post fuel).2.2.2.2.2 ts2 tbl)
  have hproto : ∀ ts2, tableOf (ParsePrototype ts2 tbl) tbl = tbl := by
    intro ts2
    have h := ParsePrototype_post ts2 tbl
    cases hp : ParsePrototype ts2 tbl with
    | ok proto rest tbl2 =>
      rw [hp] at h
      exact h.2
    | err m rest tbl2 =>
      rw [hp] at h
      exact h.2
    | outOfFuel =>
      rw [hp] at h
      exact h.elim
  refine ⟨hE ts, fun c => TExt_effPrec (hE ts) c,
    fun hnc => TExt_noChar (hE ts) hnc, ?_, hproto ts, hproto (advance ts),
    ?_, ?_⟩
  · -- ParseDefination
    simp only [ParseDefination]
    try dsimp only
    have hpp := ParsePrototype_post (advance ts) tbl
    cases hp : ParsePrototype (advance ts) tbl with
    | ok proto ts2 tbl2 =>
      rw [hp] at hpp
      obtain ⟨hs2, htb⟩ := hpp
      rw [htb]
      try dsimp only
      have hE2 := PPost_TExt ((parse_post fuel).2.2.2.2.2 ts2 tbl)
      have hsub : ts2 ⊆ ts := (hs2.trans (suffix_advance ts)).subset
      cases he : ParseExpression fuel ts2 tbl with
      | ok e ts3 tbl3 =>
        rw [he] at hE2
        exact TExt_mono hsub hE2
      | err m ts3 tbl3 =>
        rw [he] at hE2
        exact TExt_mono hsub hE2
      | outOfFuel => exact TExt_refl _ _
    | err m ts2 tbl2 =>
      rw [hp] at hpp
      rw [hpp.2]
      exact TExt_refl _ _
    | outOfFuel =>
      rw [hp] at hpp
      exact hpp.elim
  · -- ParseTopLevelExpr
    simp only [ParseTopLevelExpr]
    have hE2 := hE ts
    cases he : ParseExpression fuel ts tbl with
    | ok e ts1 tbl1 =>
      rw [he] at hE2
      exact hE2
    | err m ts1 tbl1 =>
      rw [he] at hE2
      exact hE2
    | outOfFuel => exact TExt_refl _ _
  · intro s
    exact TExt_noChar (hE (tokensOf s)) (tokensOf_noChar s)

/-- Witness for the amended C8 on the concrete stream of `"1"`. -/
theorem claim_C8_table_amended_witness :
    TExt [Token.tok_number "1"] BinopPrecedence
      (tableOf (ParseExpression 12 [Token.tok_number "1"] BinopPrecedence)
        BinopPrecedence) ∧
    tableOf (ParseExpression 12 [Token.tok_number "1"] BinopPrecedence)
      BinopPrecedence = BinopPrecedence := by
  refine ⟨(claim_C8_table_amended 12 [Token.tok_number "1"] BinopPrecedence).1, ?_⟩
  exact (claim_C8_table_amended 12 [Token.tok_number "1"] BinopPrecedence).2.2.1
    (by decide)

/-- C9: every parse entry point terminates on every finite token stream —
with the fuel embedding, `4 * (stream length) + 8` fuel is never exhausted
(each loop iteration of `ParseBinOpRHS` consumes at least two tokens, and
its inner recursion runs on a strictly shorter stream). -/
theorem claim_C9_parsers_terminate : ∀ ts tbl,
    ParseExpression (parseFuel ts) ts tbl ≠ PResult.outOfFuel ∧
    ParsePrototype ts tbl ≠ PResult.outOfFuel ∧
    ParseDefination (parseFuel ts) ts tbl ≠ PResult.outOfFuel ∧
    ParseExternProto ts tbl ≠ PResult.outOfFuel ∧
    ParseTopLevelExpr (parseFuel ts) ts tbl ≠ PResult.outOfFuel := by
  intro ts tbl
  have hExpr : ∀ (ts2 : List Token) (tbl2 : BinopMap), ts2.length ≤ ts.length →
      ParseExpression (parseFuel ts) ts2 tbl2 ≠ PResult.outOfFuel := by
    intro ts2 tbl2 hlen
    exact (parse_fuel ts.length).2.2.2.2.1 ts2 tbl2 _ hlen
      (by simp only [parseFuel]; omega)
  refine ⟨hExpr ts tbl (le_refl _), ?_, ?_, ?_, ?_⟩
  · intro hc
    have h := ParsePrototype_post ts tbl
    rw [hc] at h
    exact h
  · simp only [ParseDefination]
    try dsimp only
    have hpp := ParsePrototype_post (advance ts) tbl
    cases hp : ParsePrototype (advance ts) tbl with
    | ok proto ts2 tbl2 =>
      rw [hp] at hpp
      obtain ⟨hs2, htb⟩ := hpp
      rw [htb]
      try dsimp only
      cases he : ParseExpression (parseFuel ts) ts2 tbl with
      | ok e ts3 tbl3 => simp
      | err m ts3 tbl3 => simp
      | outOfFuel =>
        have hlen : ts2.length ≤ ts.length :=
          le_trans hs2.length_le (suffix_advance ts).length_le
        exact absurd he (hExpr ts2 tbl hlen)
    | err m ts2 tbl2 => simp
    | outOfFuel =>
      rw [hp] at hpp
      exact hpp.elim
  · intro hc
    have h := ParsePrototype_post (advance ts) tbl
    rw [show ParseExternProto ts tbl = ParsePrototype (advance ts) tbl from rfl]
      at hc
    rw [hc] at h
    exact h
  · simp only [ParseTopLevelExpr]
    cases he : ParseExpression (parseFuel ts) ts tbl with
    | ok e ts1 tbl1 => simp
    | err m ts1 tbl1 => simp
    | outOfFuel => exact absurd he (hExpr ts tbl (le_refl _))

/-- C10: the precedence lookup returns `-1` for every non-character token
and for every character token whose effective table entry is not positive,
and with any non-negative minimum precedence the binary-operator loop
returns the left operand unchanged (stream and table untouched) when such a
non-operator token is the lookahead. -/
theorem claim_C10_nonop_precedence :
    (∀ tbl, (GetTokPrecedence Token.tok_eof tbl).1 = -1) ∧
    (∀ tbl, (GetTokPrecedence Token.tok_def tbl).1 = -1) ∧
    (∀ tbl, (GetTokPrecedence Token.tok_xtern tbl).1 = -1) ∧
    (∀ tbl s, (GetTokPrecedence (Token.tok_identifier s) tbl).1 = -1) ∧
    (∀ tbl s, (GetTokPrecedence (Token.tok_number s) tbl).1 = -1) ∧
    (∀ tbl c, effPrec c tbl = -1 →
      (GetTokPrecedence (Token.tok_char c) tbl).1 = -1) ∧
    (∀ (fuel : Nat) (prec : Int) lhs ts tbl, 0 ≤ prec →
      (∀ c, curTok ts ≠ Token.tok_char c) →
      ParseBinOpRHS (fuel + 1) prec lhs ts tbl = PResult.ok lhs ts tbl) := by
  refine ⟨fun tbl => rfl, fun tbl => rfl, fun tbl => rfl, fun tbl s => rfl,
    fun tbl s => rfl, ?_, ?_⟩
  · intro tbl c h
    simp only [GetTokPrecedence]
    split
    · cases hl : List.lookup c tbl with
      | some v =>
        try dsimp only
        have h2 : (if v ≤ 0 then (-1 : Int) else v) = -1 := by
          simpa [effPrec, hl] using h
        exact h2
      | none => rfl
    · rfl
  · intro fuel prec lhs ts tbl hprec hnc
    have hgp : GetTokPrecedence (curTok ts) tbl = (-1, tbl) := by
      cases hct : curTok ts with
      | tok_char c => exact absurd hct (hnc c)
      | tok_eof => rfl
      | tok_def => rfl
      | tok_xtern => rfl
      | tok_identifier s => rfl
      | tok_number numStr => rfl
    simp only [ParseBinOpRHS]
    rw [hgp]
    try dsimp only
    rw [if_pos (by omega : (-1 : Int) < prec)]

/-- Witness for C10 at `tok_eof`, the symbol `';'`, and a number lookahead. -/
theorem claim_C10_nonop_precedence_witness :
    (GetTokPrecedence Token.tok_eof BinopPrecedence).1 = -1 ∧
    (GetTokPrecedence (Token.tok_char ';') BinopPrecedence).1 = -1 ∧
    ParseBinOpRHS (4 + 1) 0 (ExprAST.NumberExprAST "1") [Token.tok_number "2"]
      BinopPrecedence =
      PResult.ok (ExprAST.NumberExprAST "1") [Token.tok_number "2"]
        BinopPrecedence := by
  refine ⟨claim_C10_nonop_precedence.1 BinopPrecedence, ?_, ?_⟩
  · exact claim_C10_nonop_precedence.2.2.2.2.2.1 BinopPrecedence ';' (by decide)
  · exact claim_C10_nonop_precedence.2.2.2.2.2.2 4 0 (ExprAST.NumberExprAST "1")
      [Token.tok_number "2"] BinopPrecedence (by decide)
      (fun c => by simp [curTok])

/-- Witness for C9 on the concrete one-token stream `7`. -/
theorem claim_C9_parsers_terminate_witness :
    ParseExpression (parseFuel [Token.tok_number "7"]) [Token.tok_number "7"]
      BinopPrecedence ≠ PResult.outOfFuel :=
  (claim_C9_parsers_terminate [Token.tok_number "7"] BinopPrecedence).1
